import Mathlib

/-!
Verification of the hybrid recommender engine (recommend.py) of the
AI_in_E-commers repository.

The engine is embedded shallowly over the reals:
- a rating record carries (user, product, rating);
- the rating matrix is built by pivoting the rating records, aggregating
  duplicate (user, product) pairs by arithmetic mean (the pivot default),
  reindexing the columns to the product catalog with fill value 0, and
  filling the remaining missing cells with 0;
- both similarity matrices are cosine similarities of the matrix columns
  (items) and rows (users): each vector is L2-normalised, a zero norm being
  replaced by 1 so that an all-zero vector stays zero, then pairwise dot
  products are taken;
- item_based_score, user_based_score, get_hybrid_scores and
  hybrid_recommend follow the source line by line; hybrid_recommend is
  split into named stages (candidate masking, ranking, truncation,
  metadata join, filters) so the theorems can speak about each line.

The descending sort performed by the selector is modelled as the reverse
of a stable ascending sort of the candidate series, which is how the
underlying library computes a descending sort (an ascending argsort,
stable at these input sizes, whose result is then reversed).

The row index of the pivot is taken in first-occurrence order rather than
sorted order; no claim depends on the order of the user index, only on
membership and on sums over it.
-/

noncomputable section

/-- One rating record of the ratings source: user id, product id, rating. -/
structure RatingRecord where
  user : String
  product : String
  rating : ℝ

/-- One product record of the products source.  A missing price is `none`
(the loader keeps it as missing, not zero). -/
structure ProductRecord where
  product : String
  product_name : String
  category : String
  price : Option ℝ
  image : String

/-- The two loaded data sources. -/
structure Data where
  ratings : List RatingRecord
  products : List ProductRecord

namespace Rec

/-- The user index of the pivoted rating matrix: every user occurring in the
ratings source, once. -/
def usersOf (d : Data) : List String :=
  (d.ratings.map (fun r => r.user)).dedup

/-- The column index of the rating matrix after reindexing to the catalog:
the product column of the products source, in catalog order. -/
def prodsOf (d : Data) : List String :=
  d.products.map (fun m => m.product)

/-- One cell of the rating matrix: the arithmetic mean of the ratings this
user gave this product (the pivot aggregates duplicates by mean), and 0
when the user never rated the product (fillna / reindex fill value). -/
def cell (d : Data) (u p : String) : ℝ :=
  let rs := d.ratings.filter (fun r => r.user == u && r.product == p)
  if rs.isEmpty then 0 else (rs.map (fun r => r.rating)).sum / rs.length

/-- Dot product of two vectors given as lists. -/
def dotL : List ℝ → List ℝ → ℝ
  | a :: as, b :: bs => a * b + dotL as bs
  | _, _ => 0

/-- Euclidean norm of a vector. -/
def l2norm (v : List ℝ) : ℝ :=
  Real.sqrt (dotL v v)

/-- The norm used for normalisation: a zero norm is replaced by 1, exactly
as the row normalisation of the library does, so an all-zero vector is left
all-zero instead of producing an undefined quotient. -/
def safeNorm (v : List ℝ) : ℝ :=
  if l2norm v = 0 then 1 else l2norm v

/-- L2 normalisation of a vector (zero vectors are preserved). -/
def normalizeVec (v : List ℝ) : List ℝ :=
  v.map (fun x => x / safeNorm v)

/-- Cosine similarity of two vectors, computed as the library does: dot
product of the two safely normalised vectors. -/
def cosSim (v w : List ℝ) : ℝ :=
  dotL (normalizeVec v) (normalizeVec w)

/-- Column of the rating matrix belonging to product `p`: one entry per
user, in user-index order. -/
def colVec (d : Data) (p : String) : List ℝ :=
  (usersOf d).map (fun u => cell d u p)

/-- Row of the rating matrix belonging to user `u`: one entry per product,
in catalog order. -/
def rowVec (d : Data) (u : String) : List ℝ :=
  (prodsOf d).map (fun p => cell d u p)

/-- Item-item cosine similarity matrix entry. -/
def item_similarity (d : Data) (p q : String) : ℝ :=
  cosSim (colVec d p) (colVec d q)

/-- User-user cosine similarity matrix entry. -/
def user_similarity (d : Data) (u v : String) : ℝ :=
  cosSim (rowVec d u) (rowVec d v)

/-- The epsilon guarding every score denominator. -/
def eps : ℝ := 1 / 1000000000

/-- Scalar item-based score of product `p` for user `u`:
row `p` of the item similarity matrix dotted with the rating row of the user,
divided by the sum of row `p` plus epsilon. -/
def ibs (d : Data) (u p : String) : ℝ :=
  dotL ((prodsOf d).map (fun q => item_similarity d p q)) (rowVec d u) /
    (((prodsOf d).map (fun q => item_similarity d p q)).sum + eps)

/-- Item-based score series: one (product, score) entry per catalog
product. -/
def item_based_score (d : Data) (u : String) : List (String × ℝ) :=
  (prodsOf d).map (fun p => (p, ibs d u p))

/-- Scalar user-based score of product `p` for user `u`: the similarity
column of `u` with `u` itself dropped, dotted with the rating rows of the
other users, divided by the sum of the remaining similarities plus epsilon. -/
def ubs (d : Data) (u p : String) : ℝ :=
  (((usersOf d).erase u).map (fun v => user_similarity d u v * cell d v p)).sum /
    ((((usersOf d).erase u).map (fun v => user_similarity d u v)).sum + eps)

/-- User-based score series: one (product, score) entry per catalog
product. -/
def user_based_score (d : Data) (u : String) : List (String × ℝ) :=
  (prodsOf d).map (fun p => (p, ubs d u p))

/-- Scalar hybrid score: alpha times user-based plus (1 - alpha) times
item-based. -/
def hybridVal (d : Data) (u : String) (α : ℝ) (p : String) : ℝ :=
  α * ubs d u p + (1 - α) * ibs d u p

/-- The hybrid score series: one (product, score) entry per catalog
product, in catalog order. -/
def hybridSeries (d : Data) (u : String) (α : ℝ) : List (String × ℝ) :=
  (prodsOf d).map (fun p => (p, hybridVal d u α p))

/-- get_hybrid_scores: checks that the user is in the rating matrix index
and returns the blended score series; an unknown user is an error. -/
def get_hybrid_scores (d : Data) (u : String) (α : ℝ) :
    Except String (List (String × ℝ)) :=
  if u ∈ usersOf d then
    .ok (hybridSeries d u α)
  else
    .error ("User " ++ u ++ " not found in rating matrix.")

/-- One row of the returned recommendation frame: a candidate product with
its score joined to its catalog metadata. -/
structure RecRow where
  product : String
  score : ℝ
  product_name : String
  category : String
  price : Option ℝ
  image : String

/-- Candidate masking: keep only the score entries of products whose
rating by `u` is not positive (the already-rated mask `rating > 0`,
negated). -/
def candidatesOf (d : Data) (u : String) (α : ℝ) : List (String × ℝ) :=
  (hybridSeries d u α).filter (fun pr => !(decide (0 < cell d u pr.1)))

/-- The ascending order used on score entries. -/
def scoreLE (a b : String × ℝ) : Prop := a.2 ≤ b.2

instance : DecidableRel scoreLE := fun a b => Real.decidableLE a.2 b.2

instance : IsTotal (String × ℝ) scoreLE := ⟨fun a b => le_total a.2 b.2⟩

instance : IsTrans (String × ℝ) scoreLE := ⟨fun _ _ _ h h' => le_trans h h'⟩

/-- Ranking stage: sort the candidates by score descending.  The library
realises a descending sort as a stable ascending argsort whose result is
reversed; the model does the same. -/
def rankedOf (d : Data) (u : String) (α : ℝ) : List (String × ℝ) :=
  (List.insertionSort scoreLE (candidatesOf d u α)).reverse

/-- Truncation stage: the head of the ranking, top_n entries. -/
def pickedOf (d : Data) (u : String) (α : ℝ) (top_n : ℕ) : List (String × ℝ) :=
  (rankedOf d u α).take top_n

/-- Left join of the picked candidates with the product metadata.  A
candidate matching several catalog rows yields one output row per match;
a candidate matching none yields a single row with missing metadata
(this never happens for candidates drawn from the catalog itself). -/
def leftJoin (d : Data) (cands : List (String × ℝ)) : List RecRow :=
  cands.flatMap (fun pr =>
    if (d.products.filter (fun m => m.product == pr.1)).isEmpty then
      [⟨pr.1, pr.2, "", "", none, ""⟩]
    else
      (d.products.filter (fun m => m.product == pr.1)).map
        (fun m => ⟨pr.1, pr.2, m.product_name, m.category, m.price, m.image⟩))

/-- The price filter predicate: the row is kept when its price is present
and at most the limit. -/
def priceOk (lim : ℝ) (r : RecRow) : Bool :=
  match r.price with
  | some v => decide (v ≤ lim)
  | none => false

/-- The joined frame before the optional filters. -/
def joinedOf (d : Data) (u : String) (α : ℝ) (top_n : ℕ) : List RecRow :=
  leftJoin d (pickedOf d u α top_n)

/-- Optional price filter stage. -/
def priceFiltered (price_limit : Option ℝ) (rs : List RecRow) : List RecRow :=
  match price_limit with
  | some lim => rs.filter (priceOk lim)
  | none => rs

/-- Optional category filter stage. -/
def catFiltered (category : Option String) (rs : List RecRow) : List RecRow :=
  match category with
  | some c => rs.filter (fun r => r.category == c)
  | none => rs

/-- hybrid_recommend: blended scores (propagating the unknown-user error),
already-rated mask, descending sort, truncation to top_n, metadata join,
then the optional price and category filters, in this order. -/
def hybrid_recommend (d : Data) (u : String) (α : ℝ) (top_n : ℕ)
    (price_limit : Option ℝ) (category : Option String) :
    Except String (List RecRow) := do
  let _ ← get_hybrid_scores d u α
  pure (catFiltered category
    (priceFiltered price_limit (joinedOf d u α top_n)))

/-! ### Basic facts about the vector operations -/

theorem dotL_comm (v w : List ℝ) : dotL v w = dotL w v := by
  induction v generalizing w with
  | nil => cases w <;> rfl
  | cons a as ih =>
    cases w with
    | nil => rfl
    | cons b bs => simp [dotL, ih, mul_comm]

theorem dotL_self_nonneg (v : List ℝ) : 0 ≤ dotL v v := by
  induction v with
  | nil => simp [dotL]
  | cons a as ih => simpa [dotL] using add_nonneg (mul_self_nonneg a) ih

theorem dotL_self_pos (v : List ℝ) (x : ℝ) (hx : x ∈ v) (hx0 : x ≠ 0) :
    0 < dotL v v := by
  induction v with
  | nil => cases hx
  | cons a as ih =>
    rcases List.mem_cons.mp hx with h | h
    · subst h
      simpa [dotL] using add_pos_of_pos_of_nonneg (mul_self_pos.mpr hx0) (dotL_self_nonneg as)
    · simpa [dotL] using add_pos_of_nonneg_of_pos (mul_self_nonneg a) (ih h)

theorem dotL_zero_left (v w : List ℝ) (h : ∀ x ∈ v, x = 0) : dotL v w = 0 := by
  induction v generalizing w with
  | nil => cases w <;> rfl
  | cons a as ih =>
    cases w with
    | nil => rfl
    | cons b bs =>
      have ha : a = 0 := h a (List.mem_cons_self a as)
      simp [dotL, ha, ih bs (fun x hx => h x (List.mem_cons_of_mem a hx))]

theorem dotL_map_div (v w : List ℝ) (a b : ℝ) :
    dotL (v.map (fun x => x / a)) (w.map (fun x => x / b)) = dotL v w / (a * b) := by
  induction v generalizing w with
  | nil => cases w <;> simp [dotL]
  | cons x xs ih =>
    cases w with
    | nil => simp [dotL]
    | cons y ys =>
      simp only [List.map_cons, dotL, ih, add_div]
      congr 1
      rw [div_mul_div_comm]

theorem safeNorm_of_pos (v : List ℝ) (h : 0 < dotL v v) :
    safeNorm v = Real.sqrt (dotL v v) := by
  have h2 : Real.sqrt (dotL v v) ≠ 0 := by positivity
  simp only [safeNorm, l2norm, if_neg h2]

theorem cosSim_self (v : List ℝ) (x : ℝ) (hx : x ∈ v) (hx0 : x ≠ 0) :
    cosSim v v = 1 := by
  have hpos : 0 < dotL v v := dotL_self_pos v x hx hx0
  have hs : safeNorm v = Real.sqrt (dotL v v) := safeNorm_of_pos v hpos
  simp only [cosSim, normalizeVec, dotL_map_div, hs,
    Real.mul_self_sqrt (le_of_lt hpos)]
  exact div_self (ne_of_gt hpos)

theorem cosSim_comm (v w : List ℝ) : cosSim v w = cosSim w v := by
  simp [cosSim, dotL_comm]

theorem cosSim_zero_left (v w : List ℝ) (h : ∀ x ∈ v, x = 0) :
    cosSim v w = 0 := by
  apply dotL_zero_left
  intro x hx
  rcases List.mem_map.mp hx with ⟨y, hy, rfl⟩
  simp [h y hy]

theorem cosSim_zero_right (v w : List ℝ) (h : ∀ x ∈ w, x = 0) :
    cosSim v w = 0 := by
  rw [cosSim_comm]
  exact cosSim_zero_left w v h

/-- C6: both similarity matrices are symmetric, and the diagonal entry of
every product (resp. user) whose rating vector has at least one nonzero
entry equals 1. -/
theorem claim_C6_similarity_symmetric_and_unit_diagonal (d : Data) :
    (∀ p q, item_similarity d p q = item_similarity d q p) ∧
    (∀ u v, user_similarity d u v = user_similarity d v u) ∧
    (∀ p, (∃ x ∈ colVec d p, x ≠ 0) → item_similarity d p p = 1) ∧
    (∀ u, (∃ x ∈ rowVec d u, x ≠ 0) → user_similarity d u u = 1) := by
  refine ⟨fun p q => cosSim_comm _ _, fun u v => cosSim_comm _ _, ?_, ?_⟩
  · rintro p ⟨x, hx, hx0⟩
    exact cosSim_self _ x hx hx0
  · rintro u ⟨x, hx, hx0⟩
    exact cosSim_self _ x hx hx0

/-- C7: a product whose rating column is all zeros has item similarity 0
with every product (in both matrix orientations), and a user whose rating
row is all zeros has user similarity 0 with every user. -/
theorem claim_C7_zero_vector_similarity_zero (d : Data) :
    (∀ p, (∀ u ∈ usersOf d, cell d u p = 0) →
      ∀ q, item_similarity d p q = 0 ∧ item_similarity d q p = 0) ∧
    (∀ u, (∀ p ∈ prodsOf d, cell d u p = 0) →
      ∀ v, user_similarity d u v = 0 ∧ user_similarity d v u = 0) := by
  constructor
  · intro p hp q
    have hz : ∀ x ∈ colVec d p, x = 0 := by
      intro x hx
      rcases List.mem_map.mp hx with ⟨u, hu, rfl⟩
      exact hp u hu
    exact ⟨cosSim_zero_left _ _ hz, cosSim_zero_right _ _ hz⟩
  · intro u hu v
    have hz : ∀ x ∈ rowVec d u, x = 0 := by
      intro x hx
      rcases List.mem_map.mp hx with ⟨p, hp, rfl⟩
      exact hu p hp
    exact ⟨cosSim_zero_left _ _ hz, cosSim_zero_right _ _ hz⟩

/-! ### Score-level facts -/

theorem dotL_map_mul {β : Type} (l : List β) (f g : β → ℝ) :
    dotL (l.map f) (l.map g) = (l.map (fun x => f x * g x)).sum := by
  induction l with
  | nil => simp [dotL]
  | cons a as ih => simp [dotL, ih]

theorem cell_nonneg (d : Data) (u p : String)
    (h : ∀ r ∈ d.ratings, 0 ≤ r.rating) : 0 ≤ cell d u p := by
  rw [cell]
  split
  · exact le_refl 0
  · apply div_nonneg
    · apply List.sum_nonneg
      intro x hx
      rcases List.mem_map.mp hx with ⟨r, hr, rfl⟩
      exact h r (List.mem_of_mem_filter hr)
    · exact Nat.cast_nonneg _

/-- An all-zero rating column makes every entry of its item-similarity row
vanish, hence its item-based score vanishes for every user. -/
theorem ibs_of_zero_col (d : Data) (u p : String)
    (h : ∀ v ∈ usersOf d, cell d v p = 0) : ibs d u p = 0 := by
  have hz : ∀ x ∈ (prodsOf d).map (fun q => item_similarity d p q), x = 0 := by
    intro x hx
    rcases List.mem_map.mp hx with ⟨q, _, rfl⟩
    apply cosSim_zero_left
    intro y hy
    rcases List.mem_map.mp hy with ⟨v, hv, rfl⟩
    exact h v hv
  rw [ibs, dotL_zero_left _ _ hz, zero_div]

/-- An all-zero rating column receives no contribution from any other
user, hence its user-based score vanishes as well. -/
theorem ubs_of_zero_col (d : Data) (u p : String)
    (h : ∀ v ∈ usersOf d, cell d v p = 0) : ubs d u p = 0 := by
  have hz : (((usersOf d).erase u).map
      (fun v => user_similarity d u v * cell d v p)).sum = 0 := by
    apply List.sum_eq_zero
    intro x hx
    rcases List.mem_map.mp hx with ⟨v, hv, rfl⟩
    rw [h v (List.mem_of_mem_erase hv), mul_zero]
  rw [ubs, hz, zero_div]

/-! ### Claims about the score functions -/

/-- C1: for every user in the rating matrix, the item-based score of each
product is the similarity row dotted with the full rating row of the user,
divided by the sum of the similarity row over ALL catalog products plus
epsilon, and the score series has one such entry per catalog product. -/
theorem claim_C1_item_score_formula (d : Data) (u : String)
    (hu : u ∈ usersOf d) :
    (∀ p, ibs d u p =
        ((prodsOf d).map (fun q => item_similarity d p q * cell d u q)).sum /
          (((prodsOf d).map (fun q => item_similarity d p q)).sum + eps)) ∧
    (∀ p ∈ prodsOf d,
      (p, ((prodsOf d).map (fun q => item_similarity d p q * cell d u q)).sum /
          (((prodsOf d).map (fun q => item_similarity d p q)).sum + eps)) ∈
        item_based_score d u) := by
  have key : ∀ p, ibs d u p =
      ((prodsOf d).map (fun q => item_similarity d p q * cell d u q)).sum /
        (((prodsOf d).map (fun q => item_similarity d p q)).sum + eps) := by
    intro p
    rw [ibs, rowVec, dotL_map_mul]
  refine ⟨key, fun p hp => ?_⟩
  rw [← key p]
  exact List.mem_map.mpr ⟨p, hp, rfl⟩

/-- C2: for a known user and any blend weight in the unit interval, the
hybrid score series has exactly the catalog products as its index, and a
product nobody rated scores 0 under the item-based model, the user-based
model, and therefore the blend. -/
theorem claim_C2_full_series_and_zero_product (d : Data) (u : String)
    (α : ℝ) (hu : u ∈ usersOf d) (hα0 : 0 ≤ α) (hα1 : α ≤ 1) :
    (∃ s, get_hybrid_scores d u α = .ok s ∧ s.map Prod.fst = prodsOf d) ∧
    (∀ p, (∀ v ∈ usersOf d, cell d v p = 0) →
      ibs d u p = 0 ∧ ubs d u p = 0 ∧ hybridVal d u α p = 0) := by
  constructor
  · refine ⟨hybridSeries d u α, ?_, ?_⟩
    · rw [get_hybrid_scores, if_pos hu]
    · rw [hybridSeries, List.map_map]
      exact List.map_id (prodsOf d)
  · intro p hp
    have hi := ibs_of_zero_col d u p hp
    have hb := ubs_of_zero_col d u p hp
    refine ⟨hi, hb, ?_⟩
    rw [hybridVal, hi, hb, mul_zero, mul_zero, add_zero]

/-- C5: with alpha = 0 the hybrid series is exactly the item-based score
series, and with alpha = 1 it is exactly the user-based score series. -/
theorem claim_C5_alpha_boundaries (d : Data) (u : String)
    (hu : u ∈ usersOf d) :
    get_hybrid_scores d u 0 = .ok (item_based_score d u) ∧
    get_hybrid_scores d u 1 = .ok (user_based_score d u) := by
  constructor
  · rw [get_hybrid_scores, if_pos hu, hybridSeries, item_based_score]
    congr 1
    apply List.map_congr_left
    intro p _
    rw [hybridVal]
    ring_nf
  · rw [get_hybrid_scores, if_pos hu, hybridSeries, user_based_score]
    congr 1
    apply List.map_congr_left
    intro p _
    rw [hybridVal]
    ring_nf

/-- C8: a user absent from the rating matrix index makes
get_hybrid_scores fail, and hybrid_recommend propagates the very same
failure; a user present in the index never produces that failure, from
either entry point. -/
theorem claim_C8_unknown_user_error (d : Data) (u : String) (α : ℝ)
    (top_n : ℕ) (plim : Option ℝ) (cat : Option String) :
    (u ∉ usersOf d → ∃ e, get_hybrid_scores d u α = .error e ∧
      hybrid_recommend d u α top_n plim cat = .error e) ∧
    (u ∈ usersOf d → ∃ s rs, get_hybrid_scores d u α = .ok s ∧
      hybrid_recommend d u α top_n plim cat = .ok rs) := by
  constructor
  · intro hu
    refine ⟨"User " ++ u ++ " not found in rating matrix.", ?_, ?_⟩
    · rw [get_hybrid_scores, if_neg hu]
    · rw [hybrid_recommend, get_hybrid_scores, if_neg hu]
      rfl
  · intro hu
    refine ⟨hybridSeries d u α,
      catFiltered cat (priceFiltered plim (joinedOf d u α top_n)), ?_, ?_⟩
    · rw [get_hybrid_scores, if_pos hu]
    · rw [hybrid_recommend, get_hybrid_scores, if_pos hu]
      rfl

/-- C10: a rating-matrix cell aggregates the source records for its
(user, product) pair by arithmetic mean when several exist, and is the
rating of the single record, unchanged, when exactly one exists. -/
theorem claim_C10_pivot_mean (d : Data) (u p : String) :
    (∀ r, d.ratings.filter (fun r0 => r0.user == u && r0.product == p) = [r] →
      cell d u p = r.rating) ∧
    (d.ratings.filter (fun r0 => r0.user == u && r0.product == p) ≠ [] →
      cell d u p =
        ((d.ratings.filter (fun r0 => r0.user == u && r0.product == p)).map
          (fun r => r.rating)).sum /
        (d.ratings.filter (fun r0 => r0.user == u && r0.product == p)).length) := by
  constructor
  · intro r hr
    rw [cell]
    simp only [hr]
    norm_num
  · intro hne
    have h2 : ¬((d.ratings.filter
        (fun r0 => r0.user == u && r0.product == p)).isEmpty = true) := by
      simpa [List.isEmpty_iff] using hne
    rw [cell, if_neg h2]

/-! ### Facts about the selector pipeline -/

theorem hybrid_recommend_ok (d : Data) (u : String) (α : ℝ) (top_n : ℕ)
    (plim : Option ℝ) (cat : Option String) (hu : u ∈ usersOf d) :
    hybrid_recommend d u α top_n plim cat =
      .ok (catFiltered cat (priceFiltered plim (joinedOf d u α top_n))) := by
  rw [hybrid_recommend, get_hybrid_scores, if_pos hu]
  rfl

theorem mem_hybridSeries (d : Data) (u : String) (α : ℝ) (pr : String × ℝ)
    (h : pr ∈ hybridSeries d u α) :
    pr.1 ∈ prodsOf d ∧ pr.2 = hybridVal d u α pr.1 := by
  rcases List.mem_map.mp h with ⟨p, hp, rfl⟩
  exact ⟨hp, rfl⟩

theorem mem_candidatesOf (d : Data) (u : String) (α : ℝ) (pr : String × ℝ)
    (h : pr ∈ candidatesOf d u α) :
    pr ∈ hybridSeries d u α ∧ ¬(0 < cell d u pr.1) := by
  rcases List.mem_filter.mp h with ⟨h1, h2⟩
  refine ⟨h1, ?_⟩
  simpa using h2

theorem mem_rankedOf (d : Data) (u : String) (α : ℝ) (pr : String × ℝ)
    (h : pr ∈ rankedOf d u α) : pr ∈ candidatesOf d u α := by
  rw [rankedOf] at h
  rw [List.mem_reverse] at h
  exact (List.mem_insertionSort scoreLE).mp h

theorem mem_pickedOf (d : Data) (u : String) (α : ℝ) (top_n : ℕ)
    (pr : String × ℝ) (h : pr ∈ pickedOf d u α top_n) :
    pr ∈ rankedOf d u α :=
  List.mem_of_mem_take h

theorem mem_leftJoin (d : Data) (cands : List (String × ℝ)) (r : RecRow)
    (h : r ∈ leftJoin d cands) :
    ∃ pr ∈ cands, r.product = pr.1 ∧ r.score = pr.2 := by
  rw [leftJoin] at h
  rcases List.mem_flatMap.mp h with ⟨pr, hpr, hin⟩
  refine ⟨pr, hpr, ?_⟩
  by_cases he : (d.products.filter (fun m => m.product == pr.1)).isEmpty
  · rw [if_pos he] at hin
    rcases List.mem_singleton.mp hin with rfl
    exact ⟨rfl, rfl⟩
  · rw [if_neg he] at hin
    rcases List.mem_map.mp hin with ⟨m, _, rfl⟩
    exact ⟨rfl, rfl⟩

theorem mem_priceFiltered (plim : Option ℝ) (rs : List RecRow) (r : RecRow)
    (h : r ∈ priceFiltered plim rs) : r ∈ rs := by
  cases plim with
  | none => exact h
  | some lim => exact List.mem_of_mem_filter h

theorem mem_catFiltered (cat : Option String) (rs : List RecRow) (r : RecRow)
    (h : r ∈ catFiltered cat rs) : r ∈ rs := by
  cases cat with
  | none => exact h
  | some c => exact List.mem_of_mem_filter h

/-- Every output row descends from a candidate: same product, same score,
and the candidate was not masked out. -/
theorem mem_output (d : Data) (u : String) (α : ℝ) (top_n : ℕ)
    (plim : Option ℝ) (cat : Option String) (r : RecRow)
    (h : r ∈ catFiltered cat (priceFiltered plim (joinedOf d u α top_n))) :
    ∃ pr ∈ candidatesOf d u α, r.product = pr.1 ∧ r.score = pr.2 := by
  have h1 := mem_priceFiltered plim _ r (mem_catFiltered cat _ r h)
  rcases mem_leftJoin d _ r h1 with ⟨pr, hpr, hps⟩
  exact ⟨pr, mem_rankedOf d u α pr (mem_pickedOf d u α top_n pr hpr), hps⟩

/-- C3: for a user with at least one nonzero rating (and non-negative
source ratings, the data model invariant), no product the user has a
nonzero rating for ever appears among the returned recommendations. -/
theorem claim_C3_no_already_rated (d : Data) (u : String) (α : ℝ)
    (top_n : ℕ) (plim : Option ℝ) (cat : Option String)
    (hnn : ∀ r ∈ d.ratings, 0 ≤ r.rating)
    (hsome : ∃ p, cell d u p ≠ 0)
    (rs : List RecRow)
    (hok : hybrid_recommend d u α top_n plim cat = .ok rs) :
    ∀ r ∈ rs, cell d u r.product = 0 := by
  by_cases hu : u ∈ usersOf d
  · rw [hybrid_recommend_ok d u α top_n plim cat hu] at hok
    intro r hr
    rcases Except.ok.inj hok with rfl
    rcases mem_output d u α top_n plim cat r hr with ⟨pr, hpr, hps, _⟩
    rcases mem_candidatesOf d u α pr hpr with ⟨_, hmask⟩
    rw [hps]
    exact le_antisymm (not_lt.mp hmask) (cell_nonneg d u pr.1 hnn)
  · rw [hybrid_recommend, get_hybrid_scores, if_neg hu] at hok
    cases hok

/-- In a catalog without duplicate product ids, at most one metadata row
matches any product id. -/
theorem filter_product_length_le_one (d : Data) (p : String)
    (h : (prodsOf d).Nodup) :
    (d.products.filter (fun m => m.product == p)).length ≤ 1 := by
  rw [← List.countP_eq_length_filter]
  have h2 : List.countP (fun x => x == p) (prodsOf d) =
      List.countP (fun m => m.product == p) d.products := by
    rw [prodsOf, List.countP_map]
    rfl
  rw [← h2, ← List.count_eq_countP]
  exact List.nodup_iff_count_le_one.mp h p

/-- When no candidate matches more than one metadata row, the left join
keeps exactly one output row per candidate. -/
theorem leftJoin_length (d : Data) (cands : List (String × ℝ))
    (h : ∀ pr ∈ cands, (d.products.filter (fun m => m.product == pr.1)).length ≤ 1) :
    (leftJoin d cands).length = cands.length := by
  induction cands with
  | nil => rfl
  | cons pr rest ih =>
    rw [leftJoin, List.flatMap_cons, List.length_append]
    have hrest : (leftJoin d rest).length = rest.length :=
      ih (fun q hq => h q (List.mem_cons_of_mem pr hq))
    rw [leftJoin] at hrest
    have hblock : (if (d.products.filter (fun m => m.product == pr.1)).isEmpty then
        [(⟨pr.1, pr.2, "", "", none, ""⟩ : RecRow)]
      else
        (d.products.filter (fun m => m.product == pr.1)).map
          (fun m => ⟨pr.1, pr.2, m.product_name, m.category, m.price,
            m.image⟩)).length = 1 := by
      by_cases he : (d.products.filter (fun m => m.product == pr.1)).isEmpty
      · rw [if_pos he]
        rfl
      · rw [if_neg he, List.length_map]
        have h1 := h pr (List.mem_cons_self pr rest)
        have h0 : (d.products.filter (fun m => m.product == pr.1)).length ≠ 0 := by
          intro hz
          exact he (List.isEmpty_iff.mpr (List.length_eq_zero.mp hz))
        omega
    rw [hblock, hrest, List.length_cons]
    omega

/-- C4: with a known user, a duplicate-free catalog, at least top_n ranked
candidates, and a price limit excluding exactly one of the joined top-n
rows (no category filter), the returned list has length top_n - 1: the
filter runs after the truncation and nothing is refilled from the ranks
below. -/
theorem claim_C4_filter_after_truncation (d : Data) (u : String) (α : ℝ)
    (top_n : ℕ) (L : ℝ)
    (hu : u ∈ usersOf d)
    (hnodup : (prodsOf d).Nodup)
    (hn : top_n ≤ (rankedOf d u α).length)
    (hone : (joinedOf d u α top_n).countP (fun r => !priceOk L r) = 1) :
    ∃ rs, hybrid_recommend d u α top_n (some L) none = .ok rs ∧
      rs.length = top_n - 1 := by
  refine ⟨_, hybrid_recommend_ok d u α top_n (some L) none hu, ?_⟩
  have hjoin : (joinedOf d u α top_n).length = top_n := by
    rw [joinedOf, leftJoin_length d _
      (fun pr _ => filter_product_length_le_one d pr.1 hnodup)]
    rw [pickedOf, List.length_take]
    exact min_eq_left hn
  have hsplit := List.length_eq_countP_add_countP (priceOk L) (joinedOf d u α top_n)
  have hbridge : List.countP (fun a => decide ¬(priceOk L a = true))
      (joinedOf d u α top_n) =
      List.countP (fun r => !priceOk L r) (joinedOf d u α top_n) :=
    List.countP_congr (fun a _ => by simp)
  have hcat : catFiltered none (priceFiltered (some L) (joinedOf d u α top_n)) =
      (joinedOf d u α top_n).filter (priceOk L) := rfl
  rw [hcat, ← List.countP_eq_length_filter]
  omega

/-! ### Order of the returned recommendations -/

theorem duo_sublist_of_mem {α : Type} {l : List α} {a b : α}
    (ha : a ∈ l) (hb : b ∈ l) (hne : a ≠ b) :
    List.Sublist [a, b] l ∨ List.Sublist [b, a] l := by
  induction l with
  | nil => cases ha
  | cons x t ih =>
    rcases List.mem_cons.mp ha with rfl | hat
    · have hbt : b ∈ t := by
        rcases List.mem_cons.mp hb with rfl | h
        · exact absurd rfl hne
        · exact h
      exact Or.inl (List.cons_sublist_cons.mpr (List.singleton_sublist.mpr hbt))
    · rcases List.mem_cons.mp hb with rfl | hbt
      · exact Or.inr (List.cons_sublist_cons.mpr (List.singleton_sublist.mpr hat))
      · exact (ih hat hbt).imp (List.Sublist.cons x) (List.Sublist.cons x)

theorem pairwise_indexOf_of_nodup {α : Type} [DecidableEq α] (l : List α)
    (h : l.Nodup) : l.Pairwise (fun a b => l.indexOf a < l.indexOf b) := by
  induction l with
  | nil => exact List.Pairwise.nil
  | cons x t ih =>
    rcases List.nodup_cons.mp h with ⟨hx, ht⟩
    constructor
    · intro b hb
      have hbx : x ≠ b := fun he => hx (he ▸ hb)
      rw [List.indexOf_cons_self, List.indexOf_cons_ne _ hbx]
      exact Nat.succ_pos _
    · refine (ih ht).imp_of_mem ?_
      intro a b ha hb hab
      have hxa : x ≠ a := fun he => hx (he ▸ ha)
      have hxb : x ≠ b := fun he => hx (he ▸ hb)
      rw [List.indexOf_cons_ne _ hxa, List.indexOf_cons_ne _ hxb]
      exact Nat.succ_lt_succ hab

/-- The reverse of the stable ascending sort is ordered by score
descending, and entries with equal scores appear in the reverse of their
input order (recorded by any relation R that held pairwise on the
input). -/
theorem ranked_pairwise_of_pairwise (cands : List (String × ℝ))
    (R : (String × ℝ) → (String × ℝ) → Prop)
    (hR : cands.Pairwise R) (hnd : cands.Nodup) :
    ((List.insertionSort scoreLE cands).reverse).Pairwise
      (fun x y => y.2 ≤ x.2 ∧ (x.2 = y.2 → R y x)) := by
  rw [List.pairwise_reverse]
  rw [List.pairwise_iff_forall_sublist]
  intro a b hab
  have hsorted : (List.insertionSort scoreLE cands).Pairwise scoreLE :=
    List.sorted_insertionSort scoreLE cands
  have hle : scoreLE a b := List.pairwise_iff_forall_sublist.mp hsorted hab
  refine ⟨hle, ?_⟩
  intro heq
  have hndm : (List.insertionSort scoreLE cands).Nodup :=
    (List.perm_insertionSort scoreLE cands).nodup_iff.mpr hnd
  have hpw : (List.insertionSort scoreLE cands).Pairwise (fun x y => x ≠ y) :=
    hndm
  have hne : a ≠ b := by
    rintro rfl
    exact (List.pairwise_iff_forall_sublist.mp hpw hab) rfl
  have ham : a ∈ cands :=
    (List.mem_insertionSort scoreLE).mp (hab.subset (List.mem_cons_self a [b]))
  have hbm : b ∈ cands :=
    (List.mem_insertionSort scoreLE).mp
      (hab.subset (List.mem_cons_of_mem a (List.mem_cons_self b [])))
  rcases duo_sublist_of_mem ham hbm hne with hd | hd
  · exact List.pairwise_iff_forall_sublist.mp hR hd
  · exfalso
    have hba : scoreLE b a := le_of_eq heq
    have hm2 : List.Sublist [b, a] (List.insertionSort scoreLE cands) :=
      List.pair_sublist_insertionSort hba hd
    have hidx := pairwise_indexOf_of_nodup _ hndm
    have h1 := List.pairwise_iff_forall_sublist.mp hidx hab
    have h2 := List.pairwise_iff_forall_sublist.mp hidx hm2
    omega

/-- The score series inherits the strict catalog-position order from a
duplicate-free catalog. -/
theorem hybridSeries_pairwise_idx (d : Data) (u : String) (α : ℝ)
    (h : (prodsOf d).Nodup) :
    (hybridSeries d u α).Pairwise
      (fun x y => (prodsOf d).indexOf x.1 < (prodsOf d).indexOf y.1) := by
  rw [hybridSeries, List.pairwise_map]
  exact pairwise_indexOf_of_nodup _ h

theorem candidatesOf_pairwise_idx (d : Data) (u : String) (α : ℝ)
    (h : (prodsOf d).Nodup) :
    (candidatesOf d u α).Pairwise
      (fun x y => (prodsOf d).indexOf x.1 < (prodsOf d).indexOf y.1) :=
  (hybridSeries_pairwise_idx d u α h).filter _

theorem candidatesOf_nodup (d : Data) (u : String) (α : ℝ)
    (h : (prodsOf d).Nodup) : (candidatesOf d u α).Nodup := by
  apply List.Pairwise.imp ?_ (candidatesOf_pairwise_idx d u α h)
  intro a b hab
  intro he
  rw [he] at hab
  exact lt_irrefl _ hab

/-- One block of the left join: the rows generated for one candidate. -/
theorem mem_joinRow (d : Data) (pr : String × ℝ) (r : RecRow)
    (h : r ∈ (if (d.products.filter (fun m => m.product == pr.1)).isEmpty then
        [(⟨pr.1, pr.2, "", "", none, ""⟩ : RecRow)]
      else
        (d.products.filter (fun m => m.product == pr.1)).map
          (fun m => ⟨pr.1, pr.2, m.product_name, m.category, m.price, m.image⟩))) :
    r.product = pr.1 ∧ r.score = pr.2 := by
  by_cases he : (d.products.filter (fun m => m.product == pr.1)).isEmpty
  · rw [if_pos he] at h
    rcases List.mem_singleton.mp h with rfl
    exact ⟨rfl, rfl⟩
  · rw [if_neg he] at h
    rcases List.mem_map.mp h with ⟨m, _, rfl⟩
    exact ⟨rfl, rfl⟩

theorem pairwise_of_length_le_one {α : Type} {S : α → α → Prop} {l : List α}
    (h : l.length ≤ 1) : l.Pairwise S := by
  cases l with
  | nil => exact List.Pairwise.nil
  | cons x t =>
    cases t with
    | nil => exact List.pairwise_singleton S x
    | cons y t2 => simp at h

/-- The left join preserves a pairwise relation on (product, score) when
no candidate matches more than one metadata row. -/
theorem leftJoin_pairwise (d : Data) (cands : List (String × ℝ))
    (R : (String × ℝ) → (String × ℝ) → Prop)
    (h : cands.Pairwise R)
    (hle : ∀ pr ∈ cands,
      (d.products.filter (fun m => m.product == pr.1)).length ≤ 1) :
    (leftJoin d cands).Pairwise
      (fun r s => R (r.product, r.score) (s.product, s.score)) := by
  induction cands with
  | nil => exact List.Pairwise.nil
  | cons pr rest ih =>
    rcases List.pairwise_cons.mp h with ⟨hhead, htail⟩
    rw [leftJoin, List.flatMap_cons]
    apply List.pairwise_append.mpr
    refine ⟨?_, ?_, ?_⟩
    · apply pairwise_of_length_le_one
      by_cases he : (d.products.filter (fun m => m.product == pr.1)).isEmpty
      · rw [if_pos he]
        exact le_refl 1
      · rw [if_neg he, List.length_map]
        exact hle pr (List.mem_cons_self pr rest)
    · exact ih htail (fun q hq => hle q (List.mem_cons_of_mem pr hq))
    · intro r hr s hs
      rcases mem_joinRow d pr r hr with ⟨hp1, hp2⟩
      rcases mem_leftJoin d rest s hs with ⟨pr2, hpr2, hq1, hq2⟩
      rw [hp1, hp2, hq1, hq2]
      exact hhead pr2 hpr2

theorem priceFiltered_sublist (plim : Option ℝ) (rs : List RecRow) :
    List.Sublist (priceFiltered plim rs) rs := by
  cases plim with
  | none => exact List.Sublist.refl rs
  | some lim => exact List.filter_sublist rs

theorem catFiltered_sublist (cat : Option String) (rs : List RecRow) :
    List.Sublist (catFiltered cat rs) rs := by
  cases cat with
  | none => exact List.Sublist.refl rs
  | some c => exact List.filter_sublist rs

/-- C9 (amended): with a duplicate-free catalog, the returned rows are
ordered by hybrid score descending, and rows with equal scores appear in
the REVERSE of their catalog order (the descending sort reverses a stable
ascending sort); the order is a deterministic function of the scores and
the catalog order. -/
theorem claim_C9_amended_sorted_desc_ties_reversed (d : Data) (u : String)
    (α : ℝ) (top_n : ℕ) (plim : Option ℝ) (cat : Option String)
    (hnodup : (prodsOf d).Nodup) (rs : List RecRow)
    (hok : hybrid_recommend d u α top_n plim cat = .ok rs) :
    rs.Pairwise (fun x y => y.score ≤ x.score ∧
      (x.score = y.score →
        (prodsOf d).indexOf y.product < (prodsOf d).indexOf x.product)) := by
  by_cases hu : u ∈ usersOf d
  · rw [hybrid_recommend_ok d u α top_n plim cat hu] at hok
    rcases Except.ok.inj hok with rfl
    have h1 := candidatesOf_pairwise_idx d u α hnodup
    have hnd := candidatesOf_nodup d u α hnodup
    have h2 := ranked_pairwise_of_pairwise (candidatesOf d u α) _ h1 hnd
    have h3 : (pickedOf d u α top_n).Pairwise
        (fun x y => y.2 ≤ x.2 ∧ (x.2 = y.2 →
          (prodsOf d).indexOf y.1 < (prodsOf d).indexOf x.1)) :=
      h2.sublist (List.take_sublist top_n _)
    have h4 := leftJoin_pairwise d (pickedOf d u α top_n) _ h3
      (fun pr _ => filter_product_length_le_one d pr.1 hnodup)
    exact h4.sublist
      ((catFiltered_sublist cat _).trans (priceFiltered_sublist plim _)) |>.imp
      (fun hab => hab)
  · rw [hybrid_recommend, get_hybrid_scores, if_neg hu] at hok
    cases hok

/-! ### A concrete dataset used to instantiate the theorems

Two users: U1 rated product A with 1; U2 rated only a product Z that is
not in the catalog, so after reindexing to the catalog the row of U2 is all
zeros.  Catalog: A (price 5), B (price 20), C (price 5). -/

def exR : List RatingRecord :=
  [⟨"U1", "A", 1⟩, ⟨"U2", "Z", 1⟩]

def exP : List ProductRecord :=
  [⟨"A", "Apple", "General", some 5, ""⟩,
   ⟨"B", "Ball", "General", some 20, ""⟩,
   ⟨"C", "Cap", "General", some 5, ""⟩]

def exD : Data := ⟨exR, exP⟩

theorem exD_users : usersOf exD = ["U1", "U2"] := by decide

theorem exD_prods : prodsOf exD = ["A", "B", "C"] := by decide

theorem exD_cell_U1_A : cell exD "U1" "A" = 1 := by
  simp [cell, exD, exR]

theorem exD_cell_U1_B : cell exD "U1" "B" = 0 := by
  simp [cell, exD, exR]

theorem exD_cell_U1_C : cell exD "U1" "C" = 0 := by
  simp [cell, exD, exR]

theorem exD_cell_U2_A : cell exD "U2" "A" = 0 := by
  simp [cell, exD, exR]

theorem exD_cell_U2_B : cell exD "U2" "B" = 0 := by
  simp [cell, exD, exR]

theorem exD_cell_U2_C : cell exD "U2" "C" = 0 := by
  simp [cell, exD, exR]

/-- Product B is rated by nobody. -/
theorem exD_colB_zero : ∀ v ∈ usersOf exD, cell exD v "B" = 0 := by
  intro v hv
  rw [exD_users] at hv
  rcases List.mem_cons.mp hv with rfl | hv
  · exact exD_cell_U1_B
  · rcases List.mem_singleton.mp hv with rfl
    exact exD_cell_U2_B

/-- Product C is rated by nobody. -/
theorem exD_colC_zero : ∀ v ∈ usersOf exD, cell exD v "C" = 0 := by
  intro v hv
  rw [exD_users] at hv
  rcases List.mem_cons.mp hv with rfl | hv
  · exact exD_cell_U1_C
  · rcases List.mem_singleton.mp hv with rfl
    exact exD_cell_U2_C

/-- User U2 rated nothing in the catalog. -/
theorem exD_rowU2_zero : ∀ p ∈ prodsOf exD, cell exD "U2" p = 0 := by
  intro p hp
  rw [exD_prods] at hp
  rcases List.mem_cons.mp hp with rfl | hp
  · exact exD_cell_U2_A
  rcases List.mem_cons.mp hp with rfl | hp
  · exact exD_cell_U2_B
  rcases List.mem_singleton.mp hp with rfl
  exact exD_cell_U2_C

theorem exD_col_A : colVec exD "A" = [1, 0] := by
  rw [colVec, exD_users]
  simp [exD_cell_U1_A, exD_cell_U2_A]

theorem exD_row_U1 : rowVec exD "U1" = [1, 0, 0] := by
  rw [rowVec, exD_prods]
  simp [exD_cell_U1_A, exD_cell_U1_B, exD_cell_U1_C]

theorem exD_ibs_B : ∀ u, ibs exD u "B" = 0 :=
  fun u => ibs_of_zero_col exD u "B" exD_colB_zero

theorem exD_ibs_C : ∀ u, ibs exD u "C" = 0 :=
  fun u => ibs_of_zero_col exD u "C" exD_colC_zero

theorem exD_ubs_B : ∀ u, ubs exD u "B" = 0 :=
  fun u => ubs_of_zero_col exD u "B" exD_colB_zero

theorem exD_ubs_C : ∀ u, ubs exD u "C" = 0 :=
  fun u => ubs_of_zero_col exD u "C" exD_colC_zero

theorem exD_hybrid_B (u : String) (α : ℝ) : hybridVal exD u α "B" = 0 := by
  rw [hybridVal, exD_ibs_B, exD_ubs_B, mul_zero, mul_zero, add_zero]

theorem exD_hybrid_C (u : String) (α : ℝ) : hybridVal exD u α "C" = 0 := by
  rw [hybridVal, exD_ibs_C, exD_ubs_C, mul_zero, mul_zero, add_zero]

theorem exD_candidates (α : ℝ) :
    candidatesOf exD "U1" α = [("B", 0), ("C", 0)] := by
  rw [candidatesOf, hybridSeries, exD_prods]
  simp only [List.map_cons, List.map_nil, List.filter_cons, List.filter_nil]
  rw [exD_cell_U1_A, exD_cell_U1_B, exD_cell_U1_C,
    exD_hybrid_B "U1" α, exD_hybrid_C "U1" α]
  norm_num

theorem exD_ranked (α : ℝ) :
    rankedOf exD "U1" α = [("C", 0), ("B", 0)] := by
  rw [rankedOf, exD_candidates]
  have h1 : List.insertionSort scoreLE [(("B" : String), (0 : ℝ)), ("C", 0)] =
      [("B", 0), ("C", 0)] := by
    simp [List.insertionSort, List.orderedInsert, scoreLE]
  rw [h1]
  rfl

theorem exD_joined (α : ℝ) (n : ℕ) (hn : 2 ≤ n) :
    joinedOf exD "U1" α n =
      [⟨"C", 0, "Cap", "General", some 5, ""⟩,
       ⟨"B", 0, "Ball", "General", some 20, ""⟩] := by
  rw [joinedOf, pickedOf, exD_ranked]
  have ht : List.take n [(("C" : String), (0 : ℝ)), ("B", 0)] =
      [("C", 0), ("B", 0)] :=
    List.take_of_length_le (by simpa using hn)
  rw [ht]
  rfl

theorem exD_run (α : ℝ) (n : ℕ) (hn : 2 ≤ n) :
    hybrid_recommend exD "U1" α n none none =
      .ok [⟨"C", 0, "Cap", "General", some 5, ""⟩,
           ⟨"B", 0, "Ball", "General", some 20, ""⟩] := by
  rw [hybrid_recommend_ok exD "U1" α n none none (by decide)]
  have hc : catFiltered none (priceFiltered none (joinedOf exD "U1" α n)) =
      joinedOf exD "U1" α n := rfl
  rw [hc, exD_joined α n hn]

theorem exD_ratings_nonneg : ∀ r ∈ exD.ratings, 0 ≤ r.rating := by
  intro r hr
  rcases List.mem_cons.mp hr with rfl | hr
  · norm_num
  rcases List.mem_singleton.mp hr with rfl
  norm_num

/-- A second dataset with duplicate (user, product) rating records. -/
def exD2 : Data :=
  ⟨[⟨"U", "P", 2⟩, ⟨"U", "P", 4⟩, ⟨"U", "Q", 5⟩], []⟩

/-! ### Witnesses and counterexample -/

theorem claim_C1_witness :
    ibs exD "U1" "B" =
      ((prodsOf exD).map
        (fun q => item_similarity exD "B" q * cell exD "U1" q)).sum /
      (((prodsOf exD).map (fun q => item_similarity exD "B" q)).sum + eps) :=
  (claim_C1_item_score_formula exD "U1" (by decide)).1 "B"

theorem claim_C2_witness :
    (∃ s, get_hybrid_scores exD "U1" (1/2) = .ok s ∧
      s.map Prod.fst = prodsOf exD) ∧
    (ibs exD "U1" "B" = 0 ∧ ubs exD "U1" "B" = 0 ∧
      hybridVal exD "U1" (1/2) "B" = 0) := by
  have h := claim_C2_full_series_and_zero_product exD "U1" (1/2)
    (by decide) (by norm_num) (by norm_num)
  exact ⟨h.1, h.2 "B" exD_colB_zero⟩

theorem claim_C3_witness :
    cell exD "U1" "C" = 0 ∧ cell exD "U1" "B" = 0 := by
  have h := claim_C3_no_already_rated exD "U1" (3/5) 5 none none
    exD_ratings_nonneg ⟨"A", by rw [exD_cell_U1_A]; norm_num⟩ _
    (exD_run (3/5) 5 (by norm_num))
  exact ⟨h _ (List.mem_cons_self _ _),
         h _ (List.mem_cons_of_mem _ (List.mem_cons_self _ _))⟩

theorem claim_C4_witness :
    ∃ rs, hybrid_recommend exD "U1" (3/5) 2 (some 10) none = .ok rs ∧
      rs.length = 2 - 1 :=
  claim_C4_filter_after_truncation exD "U1" (3/5) 2 10 (by decide) (by decide)
    (by rw [exD_ranked]; norm_num)
    (by rw [exD_joined ((3 : ℝ)/5) 2 (le_refl 2)]
        norm_num [List.countP_cons, priceOk])

theorem claim_C5_witness :
    get_hybrid_scores exD "U1" 0 = .ok (item_based_score exD "U1") ∧
    get_hybrid_scores exD "U1" 1 = .ok (user_based_score exD "U1") :=
  claim_C5_alpha_boundaries exD "U1" (by decide)

theorem claim_C6_witness :
    item_similarity exD "A" "A" = 1 ∧ user_similarity exD "U1" "U1" = 1 := by
  have h := claim_C6_similarity_symmetric_and_unit_diagonal exD
  refine ⟨h.2.2.1 "A" ?_, h.2.2.2 "U1" ?_⟩
  · rw [exD_col_A]
    exact ⟨1, by simp, one_ne_zero⟩
  · rw [exD_row_U1]
    exact ⟨1, by simp, one_ne_zero⟩

theorem claim_C7_witness :
    (item_similarity exD "B" "A" = 0 ∧ item_similarity exD "A" "B" = 0) ∧
    (user_similarity exD "U2" "U1" = 0 ∧ user_similarity exD "U1" "U2" = 0) := by
  have h := claim_C7_zero_vector_similarity_zero exD
  exact ⟨h.1 "B" exD_colB_zero "A", h.2 "U2" exD_rowU2_zero "U1"⟩

theorem claim_C8_witness :
    (∃ e, get_hybrid_scores exD "NO_SUCH_USER" (1/2) = .error e ∧
      hybrid_recommend exD "NO_SUCH_USER" (1/2) 5 none none = .error e) ∧
    (∃ s rs, get_hybrid_scores exD "U1" (1/2) = .ok s ∧
      hybrid_recommend exD "U1" (1/2) 5 none none = .ok rs) :=
  ⟨(claim_C8_unknown_user_error exD "NO_SUCH_USER" (1/2) 5 none none).1
      (by decide),
   (claim_C8_unknown_user_error exD "U1" (1/2) 5 none none).2 (by decide)⟩

/-- C9 counterexample: products B and C have equal hybrid scores and B
precedes C in the catalog, yet the returned list is [C, B]: tied
candidates do NOT appear in their original catalog order. -/
theorem claim_C9_counterexample :
    hybrid_recommend exD "U1" (3/5) 5 none none =
      .ok [⟨"C", 0, "Cap", "General", some 5, ""⟩,
           ⟨"B", 0, "Ball", "General", some 20, ""⟩] ∧
    hybridVal exD "U1" (3/5) "B" = hybridVal exD "U1" (3/5) "C" ∧
    (prodsOf exD).indexOf "B" < (prodsOf exD).indexOf "C" := by
  refine ⟨exD_run (3/5) 5 (by norm_num), ?_, ?_⟩
  · rw [exD_hybrid_B, exD_hybrid_C]
  · rw [exD_prods]
    decide

theorem claim_C9_amended_witness :
    ([⟨"C", 0, "Cap", "General", some 5, ""⟩,
      ⟨"B", 0, "Ball", "General", some 20, ""⟩] : List RecRow).Pairwise
      (fun x y => y.score ≤ x.score ∧ (x.score = y.score →
        (prodsOf exD).indexOf y.product < (prodsOf exD).indexOf x.product)) :=
  claim_C9_amended_sorted_desc_ties_reversed exD "U1" (3/5) 5 none none
    (by decide) _ (exD_run (3/5) 5 (by norm_num))

theorem claim_C10_witness :
    cell exD2 "U" "P" = 3 ∧ cell exD2 "U" "Q" = 5 := by
  constructor
  · have e : exD2.ratings.filter
        (fun r0 => r0.user == "U" && r0.product == "P") =
        [⟨"U", "P", 2⟩, ⟨"U", "P", 4⟩] := rfl
    have h := (claim_C10_pivot_mean exD2 "U" "P").2
      (by rw [e]; exact List.cons_ne_nil _ _)
    rw [e] at h
    rw [h]
    simp
    norm_num
  · exact (claim_C10_pivot_mean exD2 "U" "Q").1 ⟨"U", "Q", 5⟩ rfl

end Rec

end
